import Mathlib

set_option maxRecDepth 8000

/-!
Verification development for the gonetica concurrent inference-serving
layer: a shallow embedding of the Go sources (node.go, network.go,
environment.go, gncli/cmd/serve.go, gncli/cmd/serveJSON.go).

The external Netica engine is reached through cgo; every C call site whose
outcome depends on the opaque engine (success/failure of finding entry,
belief vectors, expected values, drained error reports) is modelled as a
field of an `Engine` oracle structure.  The shared mutable state that the
Go code manipulates through the engine - the per-network finding set - is
threaded explicitly as a value of type `Findings`.

Error values drained from the engine are modelled by `EngErr`; the Go side
always renders them through `Environment.Errors` as `"%d - %s"` strings,
which the model reproduces in `EngErr.render`.
-/

namespace Gonetica

/-- One error report drained from the Netica engine
(`Environment.Errors` formats each report as `"%d - %s"`). -/
structure EngErr where
  num : Int
  text : String
deriving DecidableEq, Repr

/-- The string produced for an engine report by `Environment.Errors`. -/
def EngErr.render (e : EngErr) : String :=
  toString e.num ++ (" - " ++ e.text)

/-- Errors surfaced by the Go wrapper: engine reports, the undefined
expected-value error built in `Node.Value`, and the unknown-state error
built in `Node.StateNamed`. -/
inductive GoErr where
  | engine (e : EngErr)
  | undefVal
  | stateNotDefined (st : String) (nd : String)
deriving DecidableEq, Repr

/-- `error.Error()` for the errors of `GoErr` (the exact texts built by
`fmt.Errorf` in node.go / environment.go). -/
def GoErr.message : GoErr → String
  | .engine e => e.render
  | .undefVal => "In function Node.Value: undefined expected value"
  | .stateNotDefined st nd =>
      "In function Node.StateNamed: state " ++ (st ++ (" not defined for node " ++ nd))

/-- Value carried by Go's `float64` as far as the wrapper observes it:
a finite value (binary64 rounding abstracted by the exact rational),
an infinity, or NaN. -/
inductive GoFloat where
  | finite (q : ℚ)
  | inf (neg : Bool)
  | nan
deriving DecidableEq, Repr

/-! ### Go standard-library parsing (strconv.ParseFloat / strconv.Atoi)

`Node.EnterFinding` routes an evidence token through
`strconv.ParseFloat(evidence, 64)` and `strconv.Atoi`; both are embedded
below on the token's character list, including the sign/decimal/exponent
syntax, the special inf/nan forms and the overflow/underflow range errors
(a range error makes the Go call return a non-nil error, so the token is
not treated as numeric by `EnterFinding`). -/

/-- Numeric value of a digit list (most significant first). -/
def digitsToNat (l : List Char) : Nat :=
  l.foldl (fun a c => a * 10 + (c.toNat - 48)) 0

/-- All characters are decimal digits. -/
def allDigits (l : List Char) : Bool :=
  l.all (·.isDigit)

/-- Strip an optional leading sign, returning (negative?, rest). -/
def splitSign : List Char → Bool × List Char
  | '-' :: r => (true, r)
  | '+' :: r => (false, r)
  | l => (false, l)

/-- Parse the exponent part after `e`/`E`: optional sign then digits. -/
def parseExp (l : List Char) : Option Int :=
  let (eneg, r) := splitSign l
  if r.isEmpty then none
  else if allDigits r then
    some (if eneg then -(digitsToNat r : Int) else (digitsToNat r : Int))
  else none

/-- Value of integer digits `ip`, fraction digits `fp` and exponent `ex`:
the rational `digits * 10 ^ (ex - |fp|)`. -/
def decValue (ip fp : List Char) (ex : Int) : ℚ :=
  let m := digitsToNat (ip ++ fp)
  let e := ex - fp.length
  if 0 ≤ e then ((m * 10 ^ e.toNat : Nat) : ℚ)
  else mkRat (m : Int) (10 ^ (-e).toNat)

/-- Finish parsing a decimal mantissa: require at least one digit, then an
optional exponent part, then end of input. -/
def mkDec (neg : Bool) (ip fp r : List Char) : Option (Bool × ℚ) :=
  if ip.isEmpty && fp.isEmpty then none
  else
    match r with
    | [] => some (neg, decValue ip fp 0)
    | c :: r4 =>
      if c == 'e' || c == 'E' then
        match parseExp r4 with
        | some ex => some (neg, decValue ip fp ex)
        | none => none
      else none

/-- Parse Go's decimal floating-point syntax
`[+-]? digits [. digits?] ([eE][+-]?digits)?`, value as an exact ℚ. -/
def parseDecCore (l : List Char) : Option (Bool × ℚ) :=
  let (neg, r1) := splitSign l
  let ip := r1.takeWhile (·.isDigit)
  let r2 := r1.dropWhile (·.isDigit)
  match r2 with
  | '.' :: r2t =>
      mkDec neg ip (r2t.takeWhile (·.isDigit)) (r2t.dropWhile (·.isDigit))
  | _ => mkDec neg ip [] r2

/-- ASCII lower-casing of a token (Go compares the special float forms
case-insensitively). -/
def lowerStr (s : String) : String :=
  String.mk (s.data.map Char.toLower)

/-- Go's special float forms: `inf`/`infinity` with optional sign and
unsigned `nan`, case-insensitively. -/
def specialFloat (s : String) : Option GoFloat :=
  let t := lowerStr s
  if t == "inf" || t == "+inf" || t == "infinity" || t == "+infinity" then
    some (.inf false)
  else if t == "-inf" || t == "-infinity" then some (.inf true)
  else if t == "nan" then some .nan
  else none

/-- Overflow threshold of `strconv.ParseFloat(_, 64)`: a finite decimal
whose magnitude reaches `(2^54 - 1) * 2^970` rounds outside binary64 and
the call reports `ErrRange` (non-nil error). -/
def ovfBound : ℚ := (((2 ^ 54 - 1) * 2 ^ 970 : Nat) : ℚ)

/-- Underflow threshold: a nonzero decimal of magnitude at most `2^-1075`
rounds to zero and the call reports `ErrRange` (non-nil error). -/
def unfBound : ℚ := mkRat 1 (2 ^ 1075)

/-- `strconv.ParseFloat(s, 64)` restricted to the information
`Node.EnterFinding` uses: `some v` iff the call returns a nil error, with
the parsed value (binary64 rounding of finite values abstracted by the
exact rational). -/
def goParseFloat (s : String) : Option GoFloat :=
  match specialFloat s with
  | some f => some f
  | none =>
    match parseDecCore s.data with
    | none => none
    | some (neg, q) =>
      if ovfBound ≤ q then none
      else if q ≠ 0 ∧ q ≤ unfBound then none
      else some (.finite (if neg then -q else q))

/-- `strings.HasPrefix(s, "#")`: the token carries the explicit-ordinal
marker. -/
def hashMarked (s : String) : Bool :=
  match s.data with
  | '#' :: _ => true
  | _ => false

/-- `strings.TrimPrefix(s, "#")` under a `hashMarked` guard. -/
def afterHash (s : String) : String :=
  String.mk (s.data.drop 1)

/-- `strconv.Atoi`: optional sign, decimal digits, 64-bit range check;
`some n` iff the call returns a nil error. -/
def goAtoi (s : String) : Option Int :=
  match s.data with
  | [] => none
  | l =>
    let (neg, r) := splitSign l
    if r.isEmpty then none
    else if !allDigits r then none
    else
      let n := digitsToNat r
      if neg then
        if n ≤ 2 ^ 63 then some (-(n : Int)) else none
      else
        if n ≤ 2 ^ 63 - 1 then some (n : Int) else none

/-! ### The engine oracle, findings state, nodes and networks -/

/-- Oracle for every cgo call site whose outcome depends on the opaque
Netica engine.  Each `Option EngErr` field is the result of the
`Errors()` drain performed by the wrapper right after the corresponding
C call (`none` = no error reported). -/
structure Engine where
  /-- `EnterFinding_bn` followed by `Errors()` (keyed by node name, state). -/
  enterFindingErr : String → Int → Option EngErr
  /-- `EnterNodeValue_bn` followed by `Errors()` (node name, value). -/
  enterValueErr : String → GoFloat → Option EngErr
  /-- `RetractNodeFindings_bn` followed by `Errors()` (node name). -/
  retractNodeErr : String → Option EngErr
  /-- `RetractNetFindings_bn` followed by `Errors()`. -/
  retractNetErr : Option EngErr
  /-- `Errors()` drain inside `Network.NodeMap`. -/
  nodeMapErr : Option EngErr
  /-- `GetStateNamed_bn` followed by `Errors()` (state name, node name). -/
  stateNamedErr : String → String → Option EngErr
  /-- `NthProb_bn` of the node's belief vector (node name, state index). -/
  nthProb : String → Nat → ℚ
  /-- `Errors()` drain inside `Node.BeliefList` (node name). -/
  beliefErr : String → Option EngErr
  /-- `Errors()` drain after `GetNodeExpectedValue_bn` (node name). -/
  expectedErr : String → Option EngErr
  /-- Expected value and std dev; `none` models `GetUndefDbl_ns()`. -/
  expectedVal : String → Option (ℚ × ℚ)
  /-- `Errors()` drain after `GetNodeStateName_bn` in `Node.Infer`. -/
  stateNameErr : String → Nat → Option EngErr

/-- One entered finding on a node. -/
inductive Finding where
  | value (v : GoFloat)
  | state (i : Int)
deriving DecidableEq, Repr

/-- The network's finding set: node name to entered finding. -/
abbrev Findings := List (String × Finding)

/-- Remove every finding of one node (`RetractNodeFindings_bn`). -/
def clearNode (fs : Findings) (nm : String) : Findings :=
  fs.filter (fun p => p.1 != nm)

/-- Record a finding on a node. -/
def putFinding (fs : Findings) (nm : String) (f : Finding) : Findings :=
  (nm, f) :: clearNode fs nm

/-- The finding currently entered on a node, if any. -/
def findingOf (fs : Findings) (nm : String) : Option Finding :=
  List.lookup nm fs

/-- A node: its name and its ordered list of state names. -/
structure Node where
  name : String
  states : List String
deriving DecidableEq, Repr

/-- A network: its name and its nodes (listed in the enumeration order
the Go map iteration happens to produce; quantifying over all networks
covers every such order). -/
structure Network where
  name : String
  nodes : List Node
deriving DecidableEq, Repr

/-- Result of a wrapper query: a value, a Go error, or a runtime panic
(out-of-bounds slice access). -/
inductive Res (α : Type) where
  | ok (a : α)
  | err (e : GoErr)
  | crash
deriving DecidableEq, Repr

/-! ### Node operations (node.go) -/

/-- `Node.ClearFindings`: retract all findings of the node, then drain
errors. -/
def Node.ClearFindings (eng : Engine) (nd : Node) (fs : Findings) :
    Findings × Option EngErr :=
  (clearNode fs nd.name, eng.retractNodeErr nd.name)

/-- `Node.SetState`: enter a state finding; on any engine error, clear
the node's findings (discarding that call's own error) and surface the
error. -/
def Node.SetState (eng : Engine) (nd : Node) (fs : Findings) (st : Int) :
    Findings × Option GoErr :=
  let fs1 := putFinding fs nd.name (.state st)
  match eng.enterFindingErr nd.name st with
  | some e => ((Node.ClearFindings eng nd fs1).1, some (.engine e))
  | none => (fs1, none)

/-- `Node.SetValue`: enter a real-value finding; same rollback-on-error
policy as `SetState`. -/
def Node.SetValue (eng : Engine) (nd : Node) (fs : Findings) (v : GoFloat) :
    Findings × Option GoErr :=
  let fs1 := putFinding fs nd.name (.value v)
  match eng.enterValueErr nd.name v with
  | some e => ((Node.ClearFindings eng nd fs1).1, some (.engine e))
  | none => (fs1, none)

/-- `Node.StateNamed`: index of the state with the given name
(`GetStateNamed_bn`), first checking the error drain, then the
`UNDEF_STATE` sentinel. -/
def Node.StateNamed (eng : Engine) (nd : Node) (nm : String) :
    Except GoErr Nat :=
  match eng.stateNamedErr nm nd.name with
  | some e => .error (.engine e)
  | none =>
    match nd.states.findIdx? (· == nm) with
    | none => .error (.stateNotDefined nm nd.name)
    | some i => .ok i

/-- `Node.EnterFinding`: try the token as a real value
(`strconv.ParseFloat`); else, if it has the `#` marker and the rest
parses as an integer (`strconv.Atoi`), as a state index; else resolve it
as a state name (the name-lookup error is surfaced without touching the
node's findings, since no entry was attempted). -/
def Node.EnterFinding (eng : Engine) (nd : Node) (fs : Findings)
    (evidence : String) : Findings × Option GoErr :=
  match goParseFloat evidence with
  | some v => Node.SetValue eng nd fs v
  | none =>
    match (if hashMarked evidence then goAtoi (afterHash evidence) else none) with
    | some i => Node.SetState eng nd fs i
    | none =>
      match Node.StateNamed eng nd evidence with
      | .error e => (fs, some e)
      | .ok i => Node.SetState eng nd fs (Int.ofNat i)

/-- `Node.BeliefList`: the belief vector, one entry per state, then the
error drain. -/
def Node.BeliefList (eng : Engine) (nd : Node) : Except EngErr (List ℚ) :=
  let beliefs := (List.range nd.states.length).map (eng.nthProb nd.name)
  match eng.beliefErr nd.name with
  | some e => .error e
  | none => .ok beliefs

/-- The argmax scan of `Node.State`: `maxIndex`/`maxBelief` start from
index 0 and are replaced whenever a strictly larger belief appears. -/
def stateMaxLoop : List ℚ → Nat → Nat → ℚ → Nat
  | [], _, maxIdx, _ => maxIdx
  | b :: rest, idx, maxIdx, maxB =>
    if maxB < b then stateMaxLoop rest (idx + 1) idx b
    else stateMaxLoop rest (idx + 1) maxIdx maxB

/-- `Node.State`: the most likely state.  The Go code reads
`beliefList[0]` without a length guard, so an empty belief vector is a
runtime panic (`Res.crash`). -/
def Node.State (eng : Engine) (nd : Node) : Res Nat :=
  match Node.BeliefList eng nd with
  | .error e => .err (.engine e)
  | .ok beliefList =>
    match beliefList with
    | [] => .crash
    | b :: _ => .ok (stateMaxLoop beliefList 0 0 b)

/-- `Node.Value`: expected value with std dev; engine errors first, then
the undefined-value sentinel. -/
def Node.Value (eng : Engine) (nd : Node) : Except GoErr (ℚ × ℚ) :=
  match eng.expectedErr nd.name with
  | some e => .error (.engine e)
  | none =>
    match eng.expectedVal nd.name with
    | none => .error .undefVal
    | some vs => .ok vs

/-! ### strconv.FormatFloat rendering of the value estimate -/

/-- `n/d ≥ 10^e` over the naturals (d > 0). -/
def pow10GE (n d : Nat) (e : Int) : Bool :=
  d * 10 ^ e.toNat ≤ n * 10 ^ (-e).toNat

/-- Decimal exponent of `n/d` (both positive): the unique `e` with
`10^e ≤ n/d < 10^(e+1)`. -/
def qLog10 (n d : Nat) : Int :=
  let e0 : Int := (Nat.toDigits 10 n).length - (Nat.toDigits 10 d).length
  if pow10GE n d e0 then e0 else e0 - 1

/-- First 17 significant decimal digits of `n/d` scaled to exponent `e`. -/
def mant17 (n d : Nat) (e : Int) : Nat :=
  (n * 10 ^ ((16 : Int) - e).toNat) / (d * 10 ^ (e - 16).toNat)

/-- Drop trailing zero digits (fuelled; at most 17 digits arrive). -/
def trimZeros : Nat → Nat → Nat
  | 0, m => m
  | fuel + 1, m => if m % 10 == 0 && m != 0 then trimZeros fuel (m / 10) else m

/-- Pad an exponent digit list to the two-digit minimum of Go's `%E`. -/
def pad2 (l : List Char) : List Char :=
  if l.length < 2 then '0' :: l else l

/-- Character rendering of a finite value in scientific notation,
`d.dddE±ee`. -/
def sciChars (q : ℚ) : List Char :=
  if q = 0 then ['0', 'E', '+', '0', '0']
  else
    let n := q.num.natAbs
    let d := q.den
    let e := qLog10 n d
    let m := trimZeros 17 (mant17 n d e)
    let ds := match Nat.toDigits 10 m with
      | [] => ['0']
      | c :: rest => c :: (if rest.isEmpty then [] else '.' :: rest)
    let es := (if e < 0 then ['E', '-'] else ['E', '+']) ++ pad2 (Nat.toDigits 10 e.natAbs)
    (if q < 0 then ['-'] else []) ++ (ds ++ es)

/-- Models `strconv.FormatFloat(value, fmt, -1, 64)` with the scientific
format byte: sign, significant digits, `E`, signed two-digit-minimum
exponent.  The binary64 round-to-nearest and shortest-round-trip digit
selection of the Go runtime are abstracted by exact rational digits
truncated at 17 significant places; no claim depends on the digit string
itself, only on the routing of `Node.Infer`. -/
def formatFloatE (q : ℚ) : String := String.mk (sciChars q)

/-- `Node.Infer`: try the expected value first; on any error from
`Node.Value`, fall back to the most-likely-state path, rendering the
state's name via `GetNodeStateName_bn` or, when the name is empty, the
ordinal token `#<index>`; if the fallback fails, its error (which has
overwritten the expected-value error) is returned. -/
def Node.Infer (eng : Engine) (nd : Node) : Res String :=
  match Node.Value eng nd with
  | .ok (v, _) => .ok (formatFloatE v)
  | .error _ =>
    match Node.State eng nd with
    | .ok idx =>
      match eng.stateNameErr nd.name idx with
      | some e => .err (.engine e)
      | none =>
        let nm := nd.states.getD idx ""
        if nm = "" then .ok ("#" ++ toString idx) else .ok nm
    | .err e => .err e
    | .crash => .crash

/-! ### Network operations (network.go) -/

/-- `Network.NodeNamed` (`GetNodeNamed_bn`): the node with the given
name, if any. -/
def Network.NodeNamed (net : Network) (nm : String) : Option Node :=
  net.nodes.find? (fun n => n.name == nm)

/-- `Network.ClearCases`: retract every finding in the network, then
drain errors. -/
def Network.ClearCases (eng : Engine) (_net : Network) (_fs : Findings) :
    Findings × Option EngErr :=
  ([], eng.retractNetErr)

/-- The node loop of `Network.EnterCase`: for each node that has an
evidence token in the case map, enter the finding; on the first failure
retract all findings on the whole network (`ClearCases`, its own error
discarded) and surface the error. -/
def enterCaseNodes (eng : Engine) (net : Network)
    (cm : List (String × String)) :
    List Node → Findings → Findings × Option GoErr
  | [], fs => (fs, none)
  | nd :: rest, fs =>
    match List.lookup nd.name cm with
    | some ev =>
      match Node.EnterFinding eng nd fs ev with
      | (fs1, some e) => ((Network.ClearCases eng net fs1).1, some e)
      | (fs1, none) => enterCaseNodes eng net cm rest fs1
    | none => enterCaseNodes eng net cm rest fs

/-- `Network.EnterCase`: build the node map (whose `Errors()` drain can
fail, in which case the findings are left untouched), then run the node
loop. -/
def Network.EnterCase (eng : Engine) (net : Network) (fs : Findings)
    (cm : List (String × String)) : Findings × Option GoErr :=
  match eng.nodeMapErr with
  | some e => (fs, some (.engine e))
  | none => enterCaseNodes eng net cm net.nodes fs

/-! ### The batch orchestrator (gncli/cmd/serveJSON.go, postNetNode) -/

/-- One case of a batch: node name to evidence token. -/
abbrev CaseMap := List (String × String)

/-- `singleJSON`: one per-case result of the batch. -/
structure SingleJSON where
  index : Nat
  error : String
  value : String
deriving DecidableEq, Repr

/-- Outcome of the per-case loop of `postNetNode`: the accumulated
results, the final finding set, the finding set at each point the
network's exclusive lock was released, and whether a runtime panic
escaped the loop (in which case the lock is never released). -/
structure LoopOut where
  results : List SingleJSON
  final : Findings
  unlocks : List Findings
  crashed : Bool
deriving DecidableEq, Repr

/-- The case loop of `postNetNode`: for each case, under the network's
exclusive lock, enter the case (on failure unlock and record the error -
no orchestrator-level `ClearCases` in this branch), infer the target
node (on failure `ClearCases`, unlock, record the error), and on success
`ClearCases`, unlock and record the value. -/
def postNetNodeLoop (eng : Engine) (net : Network) (nd : Node) :
    List CaseMap → Nat → Findings → LoopOut
  | [], _, fs => ⟨[], fs, [], false⟩
  | cm :: rest, idx, fs =>
    match Network.EnterCase eng net fs cm with
    | (fs1, some e) =>
      let o := postNetNodeLoop eng net nd rest (idx + 1) fs1
      ⟨⟨idx, e.message, ""⟩ :: o.results, o.final, fs1 :: o.unlocks, o.crashed⟩
    | (fs1, none) =>
      match Node.Infer eng nd with
      | .crash => ⟨[], fs1, [], true⟩
      | .err e =>
        let fs2 := (Network.ClearCases eng net fs1).1
        let o := postNetNodeLoop eng net nd rest (idx + 1) fs2
        ⟨⟨idx, e.message, ""⟩ :: o.results, o.final, fs2 :: o.unlocks, o.crashed⟩
      | .ok v =>
        let fs2 := (Network.ClearCases eng net fs1).1
        let o := postNetNodeLoop eng net nd rest (idx + 1) fs2
        ⟨⟨idx, "", v⟩ :: o.results, o.final, fs2 :: o.unlocks, o.crashed⟩

/-- Outcome of the node-resolution prologue of `postNetNode`. -/
inductive NodeLookup where
  | found (nd : Node)
  | notFound
  | crashOOB
deriving DecidableEq, Repr

/-- The node-resolution prologue of `postNetNode`: look the node id up
by name; on failure parse it as an ordinal with `strconv.Atoi`; a
non-numeric unknown id is NotFound, but a numeric id is used to index
`repr.Nodes[index]` without a bounds check, so an out-of-range ordinal
is a runtime panic (`crashOOB`), not NotFound. -/
def postNetNodeResolve (net : Network) (reprNodes : List String)
    (nodeID : String) : NodeLookup :=
  match net.NodeNamed nodeID with
  | some nd => .found nd
  | none =>
    match goAtoi nodeID with
    | none => .notFound
    | some idx =>
      if h : 0 ≤ idx ∧ idx.toNat < reprNodes.length then
        match net.NodeNamed (reprNodes.get ⟨idx.toNat, h.2⟩) with
        | some nd => .found nd
        | none => .notFound
      else .crashOOB

/-! ### The load pass (gncli/cmd/serve.go, indexNets) -/

/-- Outcome of `gonetica.NewNetwork` for one file: an error, or the
loaded network's declared name. -/
inductive LoadOut where
  | ok (nm : String)
  | error (msg : String)
deriving DecidableEq, Repr

/-- One entry handed to the `filepath.Walk` callback of `indexNets`:
its path, whether it is a directory, and - for files the callback reads -
the outcome of `gonetica.NewNetwork`.  Successful loads are identified
by their path. -/
structure WalkEntry where
  path : String
  isDir : Bool
  load : LoadOut
deriving DecidableEq, Repr

/-- `filepath.Ext(path)` is `".dne"` or `".neta"`. -/
def hasNetExt (p : String) : Bool :=
  ".dne".data.isSuffixOf p.data || ".neta".data.isSuffixOf p.data

/-- The registry and side effects accumulated by `indexNets`: the `nets`
slice of (path identity, declared name) in load order, the `lookup` map,
the networks closed by collision rejection, and the logged messages. -/
structure IndexState where
  nets : List (String × String)
  lookup : List (String × String)
  closed : List String
  logs : List String
deriving DecidableEq, Repr

/-- Go map assignment `m[k] = v` (overwrite). -/
def setAssoc (m : List (String × String)) (k v : String) :
    List (String × String) :=
  (k, v) :: m.filter (fun p => p.1 != k)

/-- The collision message logged by `indexNets`. -/
def collisionMsg (nm relPath : String) : String :=
  "In function serve: network named " ++ nm ++ " already loaded from path " ++ relPath

/-- One step of the `filepath.Walk` callback in `indexNets`: skip
directories and foreign extensions; log-and-skip load errors; on a name
collision close the new network, log, and leave the registry untouched;
otherwise append to `nets` and index under both the name and the ordinal
string.  The callback always returns nil, so the walk never aborts. -/
def indexStep (s : IndexState) (e : WalkEntry) : IndexState :=
  if !e.isDir && hasNetExt e.path then
    match e.load with
    | .error msg => { s with logs := s.logs ++ [msg] }
    | .ok nm =>
      if (List.lookup nm s.lookup).isSome then
        { s with closed := s.closed ++ [e.path],
                 logs := s.logs ++ [collisionMsg nm e.path] }
      else
        { s with nets := s.nets ++ [(e.path, nm)],
                 lookup := setAssoc (setAssoc s.lookup nm e.path)
                   (toString s.nets.length) e.path }
  else s

/-- The empty registry. -/
def initIndex : IndexState := ⟨[], [], [], []⟩

/-- `indexNets` over the walk's entry sequence. -/
def indexNets (files : List WalkEntry) : IndexState :=
  files.foldl indexStep initIndex

/-- The declared names of the registered networks, in registry order -
the order `getNets` serves them in. -/
def netNames (s : IndexState) : List String :=
  s.nets.map Prod.snd

/-- The walk entries eligible for registration (readable network files),
as (path, name) in encounter order. -/
def eligibleEntries (files : List WalkEntry) : List (String × String) :=
  files.filterMap (fun e =>
    if !e.isDir && hasNetExt e.path then
      match e.load with
      | .ok nm => some (e.path, nm)
      | .error _ => none
    else none)

/-! ### Concrete fixtures used by witnesses and counterexamples -/

/-- An engine that reports no errors, zero beliefs and no expected
value. -/
def engOK : Engine where
  enterFindingErr := fun _ _ => none
  enterValueErr := fun _ _ => none
  retractNodeErr := fun _ => none
  retractNetErr := none
  nodeMapErr := none
  stateNamedErr := fun _ _ => none
  nthProb := fun _ _ => 0
  beliefErr := fun _ => none
  expectedErr := fun _ => none
  expectedVal := fun _ => none
  stateNameErr := fun _ _ => none

/-- A node whose only state is literally named `"42"`. -/
def node42 : Node := ⟨"T", ["42"]⟩

/-- A two-state discrete node. -/
def nodeHL : Node := ⟨"T", ["Low", "High"]⟩

/-- A network holding `nodeHL`. -/
def netHL : Network := ⟨"N", [nodeHL]⟩

/-- An engine whose expected-value drain reports an engine error (not
the undefined-value sentinel) and whose beliefs make state 1 most
likely. -/
def engBoom : Engine :=
  { engOK with
    expectedErr := fun _ => some ⟨7, "boom"⟩
    nthProb := fun _ i => if i == 1 then 1 else 0 }

/-- An engine that rejects every value finding. -/
def engConflict : Engine :=
  { engOK with enterValueErr := fun _ _ => some ⟨5, "conflict"⟩ }

/-- An engine that answers every expected-value query with 42. -/
def engVal : Engine :=
  { engOK with expectedVal := fun _ => some (42, 0) }

/-- An engine whose expected values are undefined and whose state names
resolve, so `Node.Infer` takes the discrete fallback. -/
def engDiscrete : Engine :=
  { engOK with nthProb := fun _ i => if i == 1 then 1 else 0 }

/-- A network with one node named `"B"`. -/
def netB : Network := ⟨"N2", [⟨"B", ["x"]⟩]⟩

/-- A pre-existing finding set (a finding on node `"A"`). -/
def fs0 : Findings := [("A", .state 0)]

/-- A case targeting node `"B"` with a numeric token. -/
def cmB : CaseMap := [("B", "1.5")]

/-- A node with an empty state list. -/
def nodeEmpty : Node := ⟨"E", []⟩

/-- Result shape of one batch entry: empty error with a non-empty value,
or a non-empty error with an empty value. -/
def goodResult (r : SingleJSON) : Prop :=
  (r.error = "" ∧ r.value ≠ "") ∨ (r.error ≠ "" ∧ r.value = "")

/-- Projection of `IndexState` to its registry part (the `nets` and
`lookup` maps), which the rejected load must leave unchanged. -/
def regOf (s : IndexState) : List (String × String) × List (String × String) :=
  (s.nets, s.lookup)

/-- The registry part of `indexStep`, as a function of the registry part
alone (the step never reads `closed` or `logs`). -/
def regStep (r : List (String × String) × List (String × String)) (e : WalkEntry) :
    List (String × String) × List (String × String) :=
  if !e.isDir && hasNetExt e.path then
    match e.load with
    | .error _ => r
    | .ok nm =>
      if (List.lookup nm r.2).isSome then r
      else (r.1 ++ [(e.path, nm)],
        setAssoc (setAssoc r.2 nm e.path) (toString r.1.length) e.path)
  else r

/-- Lexicographic order on character lists. -/
def lexLe : List Char → List Char → Bool
  | [], _ => true
  | _ :: _, [] => false
  | a :: as, b :: bs => if a < b then true else if a = b then lexLe as bs else false

/-- Lexicographic order on strings (the order a name-sorted listing
would have to observe, and the lexical visiting order of
`filepath.Walk` on the paths). -/
def strLe (a b : String) : Bool := lexLe a.data b.data

/-- A one-file load pass registering the name `"N"`. -/
def preW : List WalkEntry := [⟨"a.dne", false, .ok "N"⟩]

/-- A later file declaring the already-registered name `"N"`. -/
def cW : WalkEntry := ⟨"b.dne", false, .ok "N"⟩

/-- A file processed after the rejected collision. -/
def postW : List WalkEntry := [⟨"c.dne", false, .ok "M"⟩]

/-- Two sources whose walk order (by path) disagrees with the
lexicographic order of the declared network names. -/
def filesC9 : List WalkEntry :=
  [⟨"a.dne", false, .ok "zeta"⟩, ⟨"b.dne", false, .ok "alpha"⟩]

/-! ### Helper lemmas -/

theorem strAppend_ne_empty_left (a b : String) (h : a ≠ "") : a ++ b ≠ "" := by
  intro hc
  apply h
  apply String.ext
  have hd := String.ext_iff.mp hc
  cases a with
  | mk la =>
    cases b with
    | mk lb =>
      have hl : la ++ lb = [] := hd
      simp only [List.append_eq_nil] at hl
      exact hl.1

theorem strAppend_ne_empty_right (a b : String) (h : b ≠ "") : a ++ b ≠ "" := by
  intro hc
  apply h
  apply String.ext
  have hd := String.ext_iff.mp hc
  cases a with
  | mk la =>
    cases b with
    | mk lb =>
      have hl : la ++ lb = [] := hd
      simp only [List.append_eq_nil] at hl
      exact hl.2

theorem strMk_ne_empty (l : List Char) (h : l ≠ []) : String.mk l ≠ "" := by
  intro hc
  exact h (String.ext_iff.mp hc)

/-- Every engine report renders to a non-empty string (the `"%d - %s"`
format of `Environment.Errors`). -/
theorem engErr_render_ne (e : EngErr) : e.render ≠ "" := by
  apply strAppend_ne_empty_right
  apply strAppend_ne_empty_left
  decide

/-- Every wrapper error has a non-empty `Error()` string. -/
theorem goErr_message_ne (e : GoErr) : e.message ≠ "" := by
  cases e with
  | engine e => exact engErr_render_ne e
  | undefVal => decide
  | stateNotDefined st nd =>
    apply strAppend_ne_empty_left
    decide

/-! ### C5: evidence parsing precedence -/

/-- C5: evidence-token parsing follows the strict precedence
numeric - explicit-ordinal - state name: a token accepted by
`strconv.ParseFloat` is always entered as a value finding; otherwise a
`#`-marked token whose remainder parses as an integer is entered as that
state index; otherwise the whole token is resolved against the node's
state list, failing (`stateNotDefined`, findings untouched) when
absent. -/
theorem enterFinding_parse_precedence (eng : Engine) (nd : Node) (fs : Findings)
    (ev : String) :
    (∀ v, goParseFloat ev = some v →
        Node.EnterFinding eng nd fs ev = Node.SetValue eng nd fs v) ∧
    (goParseFloat ev = none → hashMarked ev = true →
        ∀ i, goAtoi (afterHash ev) = some i →
        Node.EnterFinding eng nd fs ev = Node.SetState eng nd fs i) ∧
    (goParseFloat ev = none →
        (hashMarked ev = false ∨ goAtoi (afterHash ev) = none) →
        eng.stateNamedErr ev nd.name = none →
        ∀ j, nd.states.findIdx? (· == ev) = some j →
        Node.EnterFinding eng nd fs ev = Node.SetState eng nd fs (Int.ofNat j)) ∧
    (goParseFloat ev = none →
        (hashMarked ev = false ∨ goAtoi (afterHash ev) = none) →
        eng.stateNamedErr ev nd.name = none →
        nd.states.findIdx? (· == ev) = none →
        Node.EnterFinding eng nd fs ev = (fs, some (.stateNotDefined ev nd.name))) := by
  refine ⟨?_, ?_, ?_, ?_⟩
  · intro v h
    simp [Node.EnterFinding, h]
  · intro h1 h2 i h3
    simp [Node.EnterFinding, h1, h2, h3]
  · intro h1 h2 hs j hidx
    rcases h2 with h2 | h2
    · simp [Node.EnterFinding, Node.StateNamed, h1, h2, hs, hidx]
    · by_cases hp : hashMarked ev
      · simp [Node.EnterFinding, Node.StateNamed, h1, hp, h2, hs, hidx]
      · simp [Node.EnterFinding, Node.StateNamed, h1, hp, h2, hs, hidx]
  · intro h1 h2 hs hidx
    rcases h2 with h2 | h2
    · simp [Node.EnterFinding, Node.StateNamed, h1, h2, hs, hidx]
    · by_cases hp : hashMarked ev
      · simp [Node.EnterFinding, Node.StateNamed, h1, hp, h2, hs, hidx]
      · simp [Node.EnterFinding, Node.StateNamed, h1, hp, h2, hs, hidx]

/-- C5 witness: the token `"42"` on a node that also has a state
literally named `"42"` resolves as the numeric value 42 (a value
finding), not the named state. -/
theorem enterFinding_parse_precedence_app :
    goParseFloat "42" = some (.finite 42) ∧
    node42.states.findIdx? (· == "42") = some 0 ∧
    Node.EnterFinding engOK node42 [] "42" = Node.SetValue engOK node42 [] (.finite 42) ∧
    findingOf (Node.EnterFinding engOK node42 [] "42").1 "T" = some (.value (.finite 42)) := by
  refine ⟨by decide, by decide, ?_, by decide⟩
  exact (enterFinding_parse_precedence engOK node42 [] "42").1 (.finite 42) (by decide)

/-! ### C7: node-level rollback on failed finding entry -/

theorem findingOf_clearNode (fs : Findings) (nm : String) :
    findingOf (clearNode fs nm) nm = none := by
  induction fs with
  | nil => rfl
  | cons p rest ih =>
    obtain ⟨k, v⟩ := p
    show List.lookup nm (List.filter (fun q => q.1 != nm) ((k, v) :: rest)) = none
    by_cases h : k = nm
    · have hb : ((k, v).1 != nm) = false := by simp [h]
      rw [List.filter_cons, hb]
      simp only [Bool.false_eq_true, if_false]
      exact ih
    · have hb : ((k, v).1 != nm) = true := by simp [h]
      have hk : (nm == k) = false := by
        simp only [beq_eq_false_iff_ne, ne_eq]
        exact fun hc => h hc.symm
      rw [List.filter_cons, hb]
      simp only [if_true]
      simp only [List.lookup, hk]
      exact ih

/-- C7: whenever entering a state finding (`SetState`) or a value
finding (`SetValue`) fails, all findings on that node are retracted
before the error is surfaced, so the node is never left in a
half-entered state. -/
theorem node_set_rollback (eng : Engine) (nd : Node) (fs : Findings) :
    (∀ st, (Node.SetState eng nd fs st).2.isSome = true →
        findingOf (Node.SetState eng nd fs st).1 nd.name = none) ∧
    (∀ v, (Node.SetValue eng nd fs v).2.isSome = true →
        findingOf (Node.SetValue eng nd fs v).1 nd.name = none) := by
  constructor
  · intro st h
    unfold Node.SetState at h ⊢
    cases he : eng.enterFindingErr nd.name st with
    | none => simp [he] at h
    | some e =>
      simp only [he, Node.ClearFindings]
      exact findingOf_clearNode _ _
  · intro v h
    unfold Node.SetValue at h ⊢
    cases he : eng.enterValueErr nd.name v with
    | none => simp [he] at h
    | some e =>
      simp only [he, Node.ClearFindings]
      exact findingOf_clearNode _ _

/-- C7 witness: a rejected value finding leaves no finding on the
node. -/
theorem node_set_rollback_app :
    (Node.SetValue engConflict ⟨"B", ["x"]⟩ fs0 (.finite 42)).2.isSome = true ∧
    findingOf (Node.SetValue engConflict ⟨"B", ["x"]⟩ fs0 (.finite 42)).1 "B" = none := by
  exact ⟨by decide, (node_set_rollback engConflict ⟨"B", ["x"]⟩ fs0).2 (.finite 42) (by decide)⟩

/-! ### C2: whole-case rollback of EnterCase -/

theorem enterCaseNodes_error_empty (eng : Engine) (net : Network) (cm : CaseMap) :
    ∀ (nodes : List Node) (fs fs' : Findings) (e : GoErr),
      enterCaseNodes eng net cm nodes fs = (fs', some e) → fs' = [] := by
  intro nodes
  induction nodes with
  | nil =>
    intro fs fs' e h
    simp [enterCaseNodes] at h
  | cons nd rest ih =>
    intro fs fs' e h
    rw [enterCaseNodes] at h
    split at h
    · split at h
      · simp [Network.ClearCases] at h
        exact h.1
      · exact ih _ _ _ h
    · exact ih _ _ _ h

/-- C2 (amended): when a node-evidence pair fails during `EnterCase`
(the node map itself was built without error), all findings on the whole
network are retracted before the error is surfaced - the finding set
after the error is empty, which equals the pre-call finding set only
when that set was itself empty. -/
theorem enterCase_rollback_empty (eng : Engine) (net : Network) (fs : Findings)
    (cm : CaseMap) (fs' : Findings) (e : GoErr)
    (hmap : eng.nodeMapErr = none)
    (h : Network.EnterCase eng net fs cm = (fs', some e)) : fs' = [] := by
  unfold Network.EnterCase at h
  rw [hmap] at h
  exact enterCaseNodes_error_empty eng net cm net.nodes fs fs' e h

/-- C2 witness: a failing pair with a pre-existing finding ends with the
empty finding set. -/
theorem enterCase_rollback_empty_app :
    engConflict.nodeMapErr = none ∧
    Network.EnterCase engConflict netB fs0 [("B", "7")] =
      ([], some (.engine ⟨5, "conflict"⟩)) ∧
    (Network.EnterCase engConflict netB fs0 [("B", "7")]).1 = [] := by
  refine ⟨rfl, by decide, ?_⟩
  exact enterCase_rollback_empty engConflict netB fs0 [("B", "7")] _
    (.engine ⟨5, "conflict"⟩) rfl (by decide)

/-- C2 counterexample: with a pre-existing finding on node `"A"`, a case
whose only pair (on node `"B"`) fails leaves the finding set empty, not
equal to the pre-call finding set - `ClearCases` retracts the
pre-existing findings too. -/
theorem enterCase_rollback_counterexample :
    Network.EnterCase engConflict netB fs0 [("B", "7")] =
      ([], some (.engine ⟨5, "conflict"⟩)) ∧
    fs0 ≠ [] ∧
    (Network.EnterCase engConflict netB fs0 [("B", "7")]).1 ≠ fs0 := by
  decide

/-! ### C3: Infer fallback characterization -/

theorem sciChars_ne_nil (q : ℚ) : sciChars q ≠ [] := by
  unfold sciChars
  split
  · simp
  · intro hc
    simp only [List.append_eq_nil] at hc
    obtain ⟨-, h2, -⟩ := hc
    split at h2
    · simp at h2
    · simp at h2

theorem formatFloatE_ne (q : ℚ) : formatFloatE q ≠ "" :=
  strMk_ne_empty _ (sciChars_ne_nil q)

theorem state_err_engine (eng : Engine) (nd : Node) (e : GoErr)
    (h : Node.State eng nd = .err e) : ∃ er, e = .engine er := by
  unfold Node.State at h
  split at h
  · exact ⟨_, (Res.err.injEq _ _).mp h.symm⟩
  · split at h
    · exact absurd h (by simp)
    · exact absurd h (by simp)

/-- C3 (amended): `Infer` attempts the expected-value query first; on
ANY failure of `Node.Value` (the undefined-value sentinel or an engine
error alike) it falls back to the most-likely-state path, rendering the
state's name or, when the name is empty, the ordinal token `#<index>`;
when the fallback also fails, the fallback's error (not the
expected-value error) is propagated; `UndefinedValueError` is never
raised to the caller. -/
theorem infer_fallback (eng : Engine) (nd : Node) :
    (∀ v sd, Node.Value eng nd = .ok (v, sd) →
        Node.Infer eng nd = .ok (formatFloatE v)) ∧
    (∀ e i, Node.Value eng nd = .error e → Node.State eng nd = .ok i →
        eng.stateNameErr nd.name i = none →
        Node.Infer eng nd =
          .ok (if nd.states.getD i "" = "" then "#" ++ toString i
               else nd.states.getD i "")) ∧
    (∀ e i er, Node.Value eng nd = .error e → Node.State eng nd = .ok i →
        eng.stateNameErr nd.name i = some er →
        Node.Infer eng nd = .err (.engine er)) ∧
    (∀ e e2, Node.Value eng nd = .error e → Node.State eng nd = .err e2 →
        Node.Infer eng nd = .err e2) ∧
    (∀ e2, Node.Infer eng nd = .err e2 → e2 ≠ .undefVal) := by
  refine ⟨?_, ?_, ?_, ?_, ?_⟩
  · intro v sd h
    simp [Node.Infer, h]
  · intro e i hV hS hN
    simp only [Node.Infer, hV, hS, hN]
    split <;> rfl
  · intro e i er hV hS hN
    simp [Node.Infer, hV, hS, hN]
  · intro e e2 hV hS
    simp [Node.Infer, hV, hS]
  · intro e2 h
    cases hV : Node.Value eng nd with
    | ok p =>
      obtain ⟨v, sd⟩ := p
      simp [Node.Infer, hV] at h
    | error e =>
      cases hS : Node.State eng nd with
      | crash => simp [Node.Infer, hV, hS] at h
      | err eSt =>
        simp [Node.Infer, hV, hS] at h
        obtain ⟨er, her⟩ := state_err_engine eng nd eSt hS
        rw [← h, her]
        simp
      | ok i =>
        cases hN : eng.stateNameErr nd.name i with
        | some er =>
          simp [Node.Infer, hV, hS, hN] at h
          rw [← h]
          simp
        | none =>
          simp only [Node.Infer, hV, hS, hN] at h
          split at h <;> simp at h

/-- C3 witness: an undefined expected value falls back to the discrete
path and renders the state name. -/
theorem infer_fallback_app :
    Node.Value engDiscrete nodeHL = .error .undefVal ∧
    Node.State engDiscrete nodeHL = .ok 1 ∧
    engDiscrete.stateNameErr nodeHL.name 1 = none ∧
    Node.Infer engDiscrete nodeHL =
      .ok (if nodeHL.states.getD 1 "" = "" then "#" ++ toString 1
           else nodeHL.states.getD 1 "") := by
  refine ⟨rfl, by decide, rfl, ?_⟩
  exact (infer_fallback engDiscrete nodeHL).2.1 .undefVal 1 rfl (by decide) rfl

/-- C3 counterexample: when `Node.Value` fails with an engine error that
is NOT the undefined-value error, `Infer` still falls back to the
discrete path and, the fallback succeeding, swallows the error instead
of propagating it untouched. -/
theorem infer_swallow_counterexample :
    Node.Value engBoom nodeHL = .error (.engine ⟨7, "boom"⟩) ∧
    Node.Infer engBoom nodeHL = .ok "High" ∧
    Node.Infer engBoom nodeHL ≠ .err (.engine ⟨7, "boom"⟩) := by
  exact ⟨rfl, by decide, by decide⟩

/-! ### C10: unguarded belief-list access in Node.State -/

theorem stateMaxLoop_lt (l : List ℚ) :
    ∀ (idx maxIdx : Nat) (maxB : ℚ) (N : Nat),
      maxIdx < N → idx + l.length ≤ N → stateMaxLoop l idx maxIdx maxB < N := by
  induction l with
  | nil =>
    intro idx maxIdx maxB N h1 h2
    simpa [stateMaxLoop] using h1
  | cons b rest ih =>
    intro idx maxIdx maxB N h1 h2
    simp only [List.length_cons] at h2
    rw [stateMaxLoop]
    split
    · apply ih
      · omega
      · omega
    · apply ih
      · exact h1
      · omega

/-- C10: `Node.State` reads `beliefList[0]` unguarded: with at least one
state (hence a non-empty belief vector) it returns an index within the
bounds of the belief list, but with zero states the access is out of
bounds - a runtime panic - so a non-empty state list is an unstated
precondition. -/
theorem state_unguarded (eng : Engine) (nd : Node) :
    (eng.beliefErr nd.name = none → nd.states ≠ [] →
        ∃ i, Node.State eng nd = .ok i ∧ i < nd.states.length) ∧
    (eng.beliefErr nd.name = none → nd.states = [] →
        Node.State eng nd = .crash) := by
  constructor
  · intro hb hs
    unfold Node.State Node.BeliefList
    rw [hb]
    have hlen : 0 < nd.states.length := List.length_pos.mpr hs
    cases hL : (List.range nd.states.length).map (eng.nthProb nd.name) with
    | nil =>
      exfalso
      have hzero : nd.states.length = 0 := by
        have h0 := congrArg List.length hL
        simpa using h0
      omega
    | cons b bs =>
      have hlen2 : nd.states.length = bs.length + 1 := by
        have h0 := congrArg List.length hL
        simpa using h0
      refine ⟨stateMaxLoop (b :: bs) 0 0 b, by simp, ?_⟩
      apply stateMaxLoop_lt
      · omega
      · simp only [List.length_cons]
        omega
  · intro hb hs
    unfold Node.State Node.BeliefList
    rw [hb, hs]
    simp

/-- C10 witness: both conjuncts at concrete nodes. -/
theorem state_unguarded_app :
    (engDiscrete.beliefErr nodeHL.name = none ∧ nodeHL.states ≠ [] ∧
      ∃ i, Node.State engDiscrete nodeHL = .ok i ∧ i < nodeHL.states.length) ∧
    (engDiscrete.beliefErr nodeEmpty.name = none ∧ nodeEmpty.states = [] ∧
      Node.State engDiscrete nodeEmpty = .crash) := by
  constructor
  · exact ⟨rfl, by decide, (state_unguarded engDiscrete nodeHL).1 rfl (by decide)⟩
  · exact ⟨rfl, rfl, (state_unguarded engDiscrete nodeEmpty).2 rfl rfl⟩

/-! ### C1: the lock is only ever released on an empty finding set -/

theorem enterCase_error_cases (eng : Engine) (net : Network) (fs : Findings)
    (cm : CaseMap) (fs' : Findings) (e : GoErr)
    (h : Network.EnterCase eng net fs cm = (fs', some e)) :
    fs' = fs ∨ fs' = [] := by
  unfold Network.EnterCase at h
  cases hm : eng.nodeMapErr with
  | some e0 =>
    rw [hm] at h
    exact Or.inl ((Prod.mk.injEq _ _ _ _).mp h).1.symm
  | none =>
    rw [hm] at h
    exact Or.inr (enterCaseNodes_error_empty eng net cm net.nodes fs fs' e h)

/-- C1: starting from the clean state the network is in when a batch
begins, at every point where the per-case loop of `postNetNode` releases
the network's exclusive lock - evidence entry failed (where the
orchestrator unlocks without its own `ClearCases` and the emptiness
holds only through `EnterCase`'s internal rollback), inference failed,
or the case succeeded - the network's finding set is empty. -/
theorem postNetNode_unlock_clean (eng : Engine) (net : Network) (nd : Node) :
    ∀ (cases : List CaseMap) (idx : Nat) (u : Findings),
      u ∈ (postNetNodeLoop eng net nd cases idx []).unlocks → u = [] := by
  intro cases
  induction cases with
  | nil =>
    intro idx u hu
    simp [postNetNodeLoop] at hu
  | cons cm rest ih =>
    intro idx u hu
    rw [postNetNodeLoop] at hu
    cases hE : Network.EnterCase eng net [] cm with
    | mk fs1 oe =>
      cases oe with
      | some e =>
        have hfs1 : fs1 = [] := by
          rcases enterCase_error_cases eng net [] cm fs1 e hE with h | h
          · exact h
          · exact h
        rw [hE] at hu
        simp only [LoopOut.unlocks] at hu ⊢
        subst hfs1
        rcases List.mem_cons.mp hu with h | h
        · exact h
        · exact ih (idx + 1) u h
      | none =>
        rw [hE] at hu
        cases hI : Node.Infer eng nd with
        | crash =>
          rw [hI] at hu
          simp at hu
        | err e2 =>
          rw [hI] at hu
          simp only [Network.ClearCases, LoopOut.unlocks] at hu
          rcases List.mem_cons.mp hu with h | h
          · exact h
          · exact ih (idx + 1) u h
        | ok v =>
          rw [hI] at hu
          simp only [Network.ClearCases, LoopOut.unlocks] at hu
          rcases List.mem_cons.mp hu with h | h
          · exact h
          · exact ih (idx + 1) u h

/-- C1 witness: a one-case batch releases the lock exactly once, with an
empty finding set. -/
theorem postNetNode_unlock_clean_app :
    ([] : Findings) ∈ (postNetNodeLoop engVal netHL nodeHL [[]] 0 []).unlocks ∧
    (postNetNodeLoop engVal netHL nodeHL [[]] 0 []).unlocks = [[]] ∧
    (([] : Findings) = []) := by
  refine ⟨by decide, by decide, ?_⟩
  exact postNetNode_unlock_clean engVal netHL nodeHL [[]] 0 [] (by decide)

/-! ### C4: batch results are index-aligned and loss-free -/

theorem state_ne_crash (eng : Engine) (nd : Node) (hst : nd.states ≠ []) :
    Node.State eng nd ≠ .crash := by
  unfold Node.State Node.BeliefList
  cases hb : eng.beliefErr nd.name with
  | some e => simp
  | none =>
    cases hL : (List.range nd.states.length).map (eng.nthProb nd.name) with
    | nil =>
      exfalso
      have hzero : nd.states.length = 0 := by
        have h0 := congrArg List.length hL
        simpa using h0
      have hlen : 0 < nd.states.length := List.length_pos.mpr hst
      omega
    | cons b bs => simp

theorem infer_ne_crash (eng : Engine) (nd : Node) (hst : nd.states ≠ []) :
    Node.Infer eng nd ≠ .crash := by
  cases hV : Node.Value eng nd with
  | ok p =>
    obtain ⟨v, sd⟩ := p
    simp [Node.Infer, hV]
  | error e =>
    cases hS : Node.State eng nd with
    | crash => exact absurd hS (state_ne_crash eng nd hst)
    | err e2 => simp [Node.Infer, hV, hS]
    | ok i =>
      cases hN : eng.stateNameErr nd.name i with
      | some er => simp [Node.Infer, hV, hS, hN]
      | none =>
        simp only [Node.Infer, hV, hS, hN]
        split <;> simp

theorem infer_ok_ne_empty (eng : Engine) (nd : Node) (v : String)
    (h : Node.Infer eng nd = .ok v) : v ≠ "" := by
  cases hV : Node.Value eng nd with
  | ok p =>
    obtain ⟨v0, sd⟩ := p
    simp only [Node.Infer, hV, Res.ok.injEq] at h
    rw [← h]
    exact formatFloatE_ne v0
  | error e =>
    cases hS : Node.State eng nd with
    | crash => simp [Node.Infer, hV, hS] at h
    | err e2 => simp [Node.Infer, hV, hS] at h
    | ok i =>
      cases hN : eng.stateNameErr nd.name i with
      | some er => simp [Node.Infer, hV, hS, hN] at h
      | none =>
        simp only [Node.Infer, hV, hS, hN] at h
        split at h
        · simp only [Res.ok.injEq] at h
          rw [← h]
          exact strAppend_ne_empty_left _ _ (by decide)
        · rename_i hcond
          simp only [Res.ok.injEq] at h
          rw [← h]
          exact hcond

theorem postLoop_aligned_aux (eng : Engine) (net : Network) (nd : Node)
    (hst : nd.states ≠ []) :
    ∀ (cases : List CaseMap) (idx : Nat) (fs : Findings),
      (postNetNodeLoop eng net nd cases idx fs).crashed = false ∧
      (postNetNodeLoop eng net nd cases idx fs).results.length = cases.length ∧
      (∀ i (h : i < (postNetNodeLoop eng net nd cases idx fs).results.length),
        ((postNetNodeLoop eng net nd cases idx fs).results.get ⟨i, h⟩).index = idx + i ∧
        goodResult ((postNetNodeLoop eng net nd cases idx fs).results.get ⟨i, h⟩)) := by
  intro cases
  induction cases with
  | nil =>
    intro idx fs
    refine ⟨rfl, rfl, ?_⟩
    intro i h
    simp [postNetNodeLoop] at h
  | cons cm rest ih =>
    intro idx fs
    rw [postNetNodeLoop]
    cases hE : Network.EnterCase eng net fs cm with
    | mk fs1 oe =>
      cases oe with
      | some e =>
        simp only [LoopOut.crashed, LoopOut.results]
        obtain ⟨ha, hb, hc⟩ := ih (idx + 1) fs1
        refine ⟨ha, by simpa using hb, ?_⟩
        intro i h
        cases i with
        | zero =>
          refine ⟨by simp, ?_⟩
          right
          exact ⟨goErr_message_ne e, rfl⟩
        | succ i =>
          have h2 : i < (postNetNodeLoop eng net nd rest (idx + 1) fs1).results.length := by
            simp at h
            omega
          obtain ⟨hx, hy⟩ := hc i h2
          constructor
          · simp only [List.get_cons_succ]
            omega
          · simpa using hy
      | none =>
        cases hI : Node.Infer eng nd with
        | crash => exact absurd hI (infer_ne_crash eng nd hst)
        | err e2 =>
          simp only [LoopOut.crashed, LoopOut.results]
          obtain ⟨ha, hb, hc⟩ := ih (idx + 1) (Network.ClearCases eng net fs1).1
          refine ⟨ha, by simpa using hb, ?_⟩
          intro i h
          cases i with
          | zero =>
            refine ⟨by simp, ?_⟩
            right
            exact ⟨goErr_message_ne e2, rfl⟩
          | succ i =>
            have h2 : i < (postNetNodeLoop eng net nd rest (idx + 1)
                (Network.ClearCases eng net fs1).1).results.length := by
              simp at h
              omega
            obtain ⟨hx, hy⟩ := hc i h2
            constructor
            · simp only [List.get_cons_succ]
              omega
            · simpa using hy
        | ok v =>
          simp only [LoopOut.crashed, LoopOut.results]
          obtain ⟨ha, hb, hc⟩ := ih (idx + 1) (Network.ClearCases eng net fs1).1
          refine ⟨ha, by simpa using hb, ?_⟩
          intro i h
          cases i with
          | zero =>
            refine ⟨by simp, ?_⟩
            left
            exact ⟨rfl, infer_ok_ne_empty eng nd v hI⟩
          | succ i =>
            have h2 : i < (postNetNodeLoop eng net nd rest (idx + 1)
                (Network.ClearCases eng net fs1).1).results.length := by
              simp at h
              omega
            obtain ⟨hx, hy⟩ := hc i h2
            constructor
            · simp only [List.get_cons_succ]
              omega
            · simpa using hy

/-- C4: the batch loop of `postNetNode` never crashes (given the target
node has at least one state), produces exactly one result per input case
with `results[i].index = i` in strict input order, errors in one case
never abort or discard sibling results, and each entry is either a
success (empty error, non-empty inferred value) or a failure (non-empty
error message, empty value). -/
theorem postNetNode_batch_aligned (eng : Engine) (net : Network) (nd : Node)
    (cases : List CaseMap) (hst : nd.states ≠ []) :
    (postNetNodeLoop eng net nd cases 0 []).crashed = false ∧
    (postNetNodeLoop eng net nd cases 0 []).results.length = cases.length ∧
    ∀ i (h : i < (postNetNodeLoop eng net nd cases 0 []).results.length),
      ((postNetNodeLoop eng net nd cases 0 []).results.get ⟨i, h⟩).index = i ∧
      goodResult ((postNetNodeLoop eng net nd cases 0 []).results.get ⟨i, h⟩) := by
  obtain ⟨h1, h2, h3⟩ := postLoop_aligned_aux eng net nd hst cases 0 []
  refine ⟨h1, h2, ?_⟩
  intro i h
  obtain ⟨ha, hb⟩ := h3 i h
  exact ⟨by omega, hb⟩

/-- C4 witness: a two-case batch whose first case fails still yields two
index-aligned results. -/
theorem postNetNode_batch_aligned_app :
    nodeHL.states ≠ [] ∧
    (postNetNodeLoop engVal netHL nodeHL [[("T", "abc")], []] 0 []).crashed = false ∧
    (postNetNodeLoop engVal netHL nodeHL [[("T", "abc")], []] 0 []).results.length = 2 ∧
    ((postNetNodeLoop engVal netHL nodeHL [[("T", "abc")], []] 0 []).results.get
        ⟨0, by decide⟩).index = 0 ∧
    goodResult ((postNetNodeLoop engVal netHL nodeHL [[("T", "abc")], []] 0 []).results.get
        ⟨1, by decide⟩) := by
  have h := postNetNode_batch_aligned engVal netHL nodeHL [[("T", "abc")], []] (by decide)
  refine ⟨by decide, h.1, h.2.1, ?_, ?_⟩
  · exact (h.2.2 0 (by decide)).1
  · exact (h.2.2 1 (by decide)).2

/-! ### C8: name collisions reject the later network -/

theorem regOf_indexStep (s : IndexState) (e : WalkEntry) :
    regOf (indexStep s e) = regStep (regOf s) e := by
  unfold regOf regStep indexStep
  by_cases h1 : (!e.isDir && hasNetExt e.path) = true
  · rw [if_pos h1, if_pos h1]
    cases e.load with
    | error msg => rfl
    | ok nm =>
      by_cases h2 : (List.lookup nm s.lookup).isSome = true
      · simp [h2]
      · simp [h2]
  · rw [if_neg h1, if_neg h1]

theorem foldl_reg_congr (l : List WalkEntry) :
    ∀ s₁ s₂ : IndexState, regOf s₁ = regOf s₂ →
      regOf (l.foldl indexStep s₁) = regOf (l.foldl indexStep s₂) := by
  induction l with
  | nil => intro s₁ s₂ h; simpa using h
  | cons e rest ih =>
    intro s₁ s₂ h
    simp only [List.foldl_cons]
    apply ih
    rw [regOf_indexStep, regOf_indexStep, h]

theorem logs_indexStep (s : IndexState) (e : WalkEntry) (x : String)
    (hx : x ∈ s.logs) : x ∈ (indexStep s e).logs := by
  unfold indexStep
  split
  · cases hl : e.load with
    | error msg => simp [hx]
    | ok nm =>
      by_cases h2 : (List.lookup nm s.lookup).isSome = true
      · simp [h2, hx]
      · simp [h2, hx]
  · exact hx

theorem closed_indexStep (s : IndexState) (e : WalkEntry) (x : String)
    (hx : x ∈ s.closed) : x ∈ (indexStep s e).closed := by
  unfold indexStep
  split
  · cases hl : e.load with
    | error msg => simp [hx]
    | ok nm =>
      by_cases h2 : (List.lookup nm s.lookup).isSome = true
      · simp [h2, hx]
      · simp [h2, hx]
  · exact hx

theorem logs_foldl (l : List WalkEntry) :
    ∀ (s : IndexState) (x : String), x ∈ s.logs → x ∈ (l.foldl indexStep s).logs := by
  induction l with
  | nil => intro s x hx; exact hx
  | cons e rest ih =>
    intro s x hx
    exact ih _ x (logs_indexStep s e x hx)

theorem closed_foldl (l : List WalkEntry) :
    ∀ (s : IndexState) (x : String), x ∈ s.closed → x ∈ (l.foldl indexStep s).closed := by
  induction l with
  | nil => intro s x hx; exact hx
  | cons e rest ih =>
    intro s x hx
    exact ih _ x (closed_indexStep s e x hx)

theorem indexStep_collision (s : IndexState) (e : WalkEntry) (nm : String)
    (hdir : e.isDir = false) (hext : hasNetExt e.path = true)
    (hload : e.load = .ok nm)
    (hcoll : (List.lookup nm s.lookup).isSome = true) :
    indexStep s e = { s with closed := s.closed ++ [e.path],
                             logs := s.logs ++ [collisionMsg nm e.path] } := by
  unfold indexStep
  rw [hload]
  simp [hdir, hext, hcoll]

/-- C8: when a later walk entry declares an already-registered network
name, the colliding network is closed and discarded, the registry (nets
list and lookup map) is exactly what it would have been without that
entry - so its size is unaffected and the name still resolves to the
first network - the rejection is logged, and the load pass continues
over the remaining entries unchanged. -/
theorem indexNets_collision_rejected
    (pre post : List WalkEntry) (c : WalkEntry) (nm : String)
    (hdir : c.isDir = false) (hext : hasNetExt c.path = true)
    (hload : c.load = .ok nm)
    (hcoll : (List.lookup nm (indexNets pre).lookup).isSome = true) :
    (indexNets (pre ++ c :: post)).nets = (indexNets (pre ++ post)).nets ∧
    (indexNets (pre ++ c :: post)).lookup = (indexNets (pre ++ post)).lookup ∧
    List.lookup nm (indexNets (pre ++ [c])).lookup =
      List.lookup nm (indexNets pre).lookup ∧
    c.path ∈ (indexNets (pre ++ c :: post)).closed ∧
    collisionMsg nm c.path ∈ (indexNets (pre ++ c :: post)).logs := by
  have hstep := indexStep_collision (indexNets pre) c nm hdir hext hload hcoll
  have hfold : indexNets (pre ++ c :: post) =
      post.foldl indexStep (indexStep (indexNets pre) c) := by
    unfold indexNets
    rw [List.foldl_append, List.foldl_cons]
  have hfold2 : indexNets (pre ++ post) = post.foldl indexStep (indexNets pre) := by
    unfold indexNets
    rw [List.foldl_append]
  have hreg : regOf (indexStep (indexNets pre) c) = regOf (indexNets pre) := by
    rw [hstep]
    rfl
  have hmain := foldl_reg_congr post _ _ hreg
  refine ⟨?_, ?_, ?_, ?_, ?_⟩
  · rw [hfold, hfold2]
    exact congrArg Prod.fst hmain
  · rw [hfold, hfold2]
    exact congrArg Prod.snd hmain
  · have hone : indexNets (pre ++ [c]) = indexStep (indexNets pre) c := by
      unfold indexNets
      rw [List.foldl_append]
      rfl
    rw [hone, hstep]
  · rw [hfold]
    apply closed_foldl
    rw [hstep]
    simp
  · rw [hfold]
    apply logs_foldl
    rw [hstep]
    simp

/-- C8 witness: a concrete collision between two files declaring
`"N"`. -/
theorem indexNets_collision_rejected_app :
    cW.isDir = false ∧ hasNetExt cW.path = true ∧ cW.load = .ok "N" ∧
    (List.lookup "N" (indexNets preW).lookup).isSome = true ∧
    (indexNets (preW ++ cW :: postW)).nets = (indexNets (preW ++ postW)).nets ∧
    cW.path ∈ (indexNets (preW ++ cW :: postW)).closed := by
  refine ⟨rfl, by decide, rfl, by decide, ?_, ?_⟩
  · exact (indexNets_collision_rejected preW postW cW "N" rfl (by decide) rfl (by decide)).1
  · exact (indexNets_collision_rejected preW postW cW "N" rfl (by decide) rfl
      (by decide)).2.2.2.1


/-! ### C9 and C6: listing order and node resolution -/

/-- C9 counterexample: a walk in lexicographic path order can register
networks whose declared names are NOT in lexicographic order - the
listing is served in load order, which is not sorted by network
name. -/
theorem netNames_sorted_counterexample :
    List.Sorted (fun a b => strLe a b = true) (filesC9.map WalkEntry.path) ∧
    netNames (indexNets filesC9) = ["zeta", "alpha"] ∧
    ¬ List.Sorted (fun a b => strLe a b = true) (netNames (indexNets filesC9)) := by
  refine ⟨by decide, by decide, by decide⟩

theorem foldl_nets_sublist (l : List WalkEntry) :
    ∀ s : IndexState, ∃ t, (l.foldl indexStep s).nets = s.nets ++ t ∧
      List.Sublist t (eligibleEntries l) := by
  induction l with
  | nil =>
    intro s
    exact ⟨[], by simp, by simp [eligibleEntries]⟩
  | cons e rest ih =>
    intro s
    simp only [List.foldl_cons]
    obtain ⟨t, ht1, ht2⟩ := ih (indexStep s e)
    by_cases h1 : (!e.isDir && hasNetExt e.path) = true
    · obtain ⟨hdir, hext⟩ : e.isDir = false ∧ hasNetExt e.path = true := by
        simpa using h1
      cases hl : e.load with
      | error msg =>
        refine ⟨t, ?_, ?_⟩
        · rw [ht1]
          congr 1
          simp [indexStep, hdir, hext, hl]
        · have heq : eligibleEntries (e :: rest) = eligibleEntries rest := by
            simp [eligibleEntries, List.filterMap_cons, hdir, hext, hl]
          rw [heq]
          exact ht2
      | ok nm =>
        by_cases h2 : (List.lookup nm s.lookup).isSome = true
        · refine ⟨t, ?_, ?_⟩
          · rw [ht1]
            congr 1
            simp [indexStep, hdir, hext, hl, h2]
          · have heq : eligibleEntries (e :: rest) = (e.path, nm) :: eligibleEntries rest := by
              simp [eligibleEntries, List.filterMap_cons, hdir, hext, hl]
            rw [heq]
            exact List.Sublist.cons _ ht2
        · refine ⟨(e.path, nm) :: t, ?_, ?_⟩
          · rw [ht1]
            have hnets : (indexStep s e).nets = s.nets ++ [(e.path, nm)] := by
              simp [indexStep, hdir, hext, hl, h2]
            rw [hnets]
            simp
          · have heq : eligibleEntries (e :: rest) = (e.path, nm) :: eligibleEntries rest := by
              simp [eligibleEntries, List.filterMap_cons, hdir, hext, hl]
            rw [heq]
            exact List.Sublist.cons₂ _ ht2
    · have hcond : ¬ (e.isDir = false ∧ hasNetExt e.path = true) := by
        intro hc
        exact h1 (by simp [hc.1, hc.2])
      refine ⟨t, ?_, ?_⟩
      · rw [ht1]
        congr 1
        simp only [indexStep]
        rw [if_neg h1]
      · have heq : eligibleEntries (e :: rest) = eligibleEntries rest := by
          simp only [eligibleEntries, List.filterMap_cons]
          split
          · rfl
          · rename_i b hb
            exfalso
            apply hcond
            revert hb
            split
            · split <;> intro hb <;> simp_all
            · intro hb
              simp at hb
        rw [heq]
        exact ht2

/-- C9 (amended): the network listing is the subsequence of the walk's
readable network files that were accepted, in encounter (load) order -
a deterministic order for a given directory tree, but not lexicographic
order of network names. -/
theorem indexNets_load_order (files : List WalkEntry) :
    List.Sublist (indexNets files).nets (eligibleEntries files) := by
  obtain ⟨t, ht1, ht2⟩ := foldl_nets_sublist files initIndex
  unfold indexNets
  rw [ht1]
  simpa [initIndex] using ht2

/-- C6 (code bug evaluated): in `postNetNode`, an unknown node id in
ordinal form that is out of range - here `"1"` on a one-node network -
reaches `repr.Nodes[index]` without a bounds check and panics instead of
returning the not-found response the query surface promises. -/
theorem postNetNode_ordinal_crash :
    Network.NodeNamed ⟨"net", [⟨"A", ["s"]⟩]⟩ "1" = none ∧
    goAtoi "1" = some 1 ∧
    postNetNodeResolve ⟨"net", [⟨"A", ["s"]⟩]⟩ ["A"] "1" = .crashOOB ∧
    postNetNodeResolve ⟨"net", [⟨"A", ["s"]⟩]⟩ ["A"] "1" ≠ .notFound := by
  refine ⟨by decide, by decide, by decide, by decide⟩


end Gonetica
